import Mathlib

namespace MoexCourse

/-! Embedding of the reading-progress feature of the MOEX course site:
the `ProgressContext` state container (`src/context/ProgressContext.tsx`),
its persistence in the browser local storage, and the footer toggle
control's docId derivation (`DocItem/Footer` wrapper). -/

/-- JSON values, covering the fragment relevant to the persisted format
of the completion list (strings, arrays and the literal constants).
`JSON.parse` and `JSON.stringify` are modelled on this fragment below. -/
inductive Json where
  | null : Json
  | bool : Bool → Json
  | str : String → Json
  | arr : List Json → Json

/-- JSON whitespace, as skipped by `JSON.parse`. -/
def isWsChar (c : Char) : Bool := c == ' ' || c == '\t' || c == '\n' || c == '\r'

/-- Drop leading JSON whitespace. -/
def skipWs : List Char → List Char
  | [] => []
  | c :: cs => if isWsChar c then skipWs cs else c :: cs

/-- Numeric value of one hexadecimal digit character. -/
def hexVal (c : Char) : Option Nat :=
  if '0' ≤ c ∧ c ≤ '9' then some (c.toNat - 48)
  else if 'a' ≤ c ∧ c ≤ 'f' then some (c.toNat - 87)
  else if 'A' ≤ c ∧ c ≤ 'F' then some (c.toNat - 55)
  else none

/-- Parse the body of a JSON string literal after the opening quote,
returning the decoded characters and the input after the closing quote;
structural on a fuel counter (one unit per decoded character, so the
input length plus one is always enough). Escape sequences follow the JSON
grammar; raw control characters are rejected, as `JSON.parse` rejects
them. -/
def parseStringBody : Nat → List Char → Option (List Char × List Char)
  | 0, _ => none
  | _ + 1, [] => none
  | fuel + 1, c :: rest =>
    if c = '"' then some ([], rest)
    else if c = '\\' then
      match rest with
      | [] => none
      | e :: rest2 =>
        if e = '"' then (parseStringBody fuel rest2).map (fun p => ('"' :: p.1, p.2))
        else if e = '\\' then (parseStringBody fuel rest2).map (fun p => ('\\' :: p.1, p.2))
        else if e = '/' then (parseStringBody fuel rest2).map (fun p => ('/' :: p.1, p.2))
        else if e = 'b' then (parseStringBody fuel rest2).map (fun p => ('\x08' :: p.1, p.2))
        else if e = 't' then (parseStringBody fuel rest2).map (fun p => ('\t' :: p.1, p.2))
        else if e = 'n' then (parseStringBody fuel rest2).map (fun p => ('\n' :: p.1, p.2))
        else if e = 'f' then (parseStringBody fuel rest2).map (fun p => ('\x0c' :: p.1, p.2))
        else if e = 'r' then (parseStringBody fuel rest2).map (fun p => ('\r' :: p.1, p.2))
        else if e = 'u' then
          match rest2 with
          | h1 :: h2 :: h3 :: h4 :: rest3 =>
            match hexVal h1, hexVal h2, hexVal h3, hexVal h4 with
            | some a, some b, some c2, some d =>
              (parseStringBody fuel rest3).map
                (fun p => (Char.ofNat (4096 * a + 256 * b + 16 * c2 + d) :: p.1, p.2))
            | _, _, _, _ => none
          | _ => none
        else none
    else if c.toNat < 32 then none
    else (parseStringBody fuel rest).map (fun p => (c :: p.1, p.2))

mutual

/-- Model of `JSON.parse` value parsing on the fragment of the grammar
relevant to the persisted completion list; structural on a fuel counter. -/
def parseValue : Nat → List Char → Option (Json × List Char)
  | 0, _ => none
  | fuel + 1, cs =>
    match skipWs cs with
    | [] => none
    | '"' :: rest =>
      match parseStringBody (rest.length + 1) rest with
      | some (sc, rest2) => some (Json.str (String.mk sc), rest2)
      | none => none
    | '[' :: rest =>
      match skipWs rest with
      | ']' :: rest2 => some (Json.arr [], rest2)
      | rest2 =>
        match parseItems fuel rest2 with
        | some (items, rest3) => some (Json.arr items, rest3)
        | none => none
    | 't' :: 'r' :: 'u' :: 'e' :: rest => some (Json.bool true, rest)
    | 'f' :: 'a' :: 'l' :: 's' :: 'e' :: rest => some (Json.bool false, rest)
    | 'n' :: 'u' :: 'l' :: 'l' :: rest => some (Json.null, rest)
    | _ => none

/-- One or more comma-separated array items followed by `]`. The empty
array is handled by `parseValue` directly. -/
def parseItems : Nat → List Char → Option (List Json × List Char)
  | 0, _ => none
  | fuel + 1, cs =>
    match parseValue fuel cs with
    | none => none
    | some (j, rest) =>
      match skipWs rest with
      | ',' :: rest2 =>
        match parseItems fuel rest2 with
        | some (items, rest3) => some (j :: items, rest3)
        | none => none
      | ']' :: rest2 => some ([j], rest2)
      | _ => none

end

/-- Model of `JSON.parse`: parse one value spanning the whole input, with
only whitespace allowed after it. A `none` result models the thrown
`SyntaxError`. -/
def jsonParse (s : String) : Option Json :=
  match parseValue (s.data.length + 1) s.data with
  | some (j, rest) => if skipWs rest = [] then some j else none
  | none => none

/-- Lower-case hexadecimal digit character, as produced by the unicode
escapes of `JSON.stringify`. -/
def hexDigit (n : Nat) : Char :=
  if n < 10 then Char.ofNat (48 + n) else Char.ofNat (87 + n)

/-- Model of the character escaping performed by `JSON.stringify` inside
string values: quote, backslash and the control characters are escaped
(short escapes for the five named ones, `\u00XX` otherwise), every other
character is emitted as itself. -/
def escapeChar (c : Char) : List Char :=
  if c = '"' then '\\' :: '"' :: []
  else if c = '\\' then '\\' :: '\\' :: []
  else if c = '\x08' then '\\' :: 'b' :: []
  else if c = '\t' then '\\' :: 't' :: []
  else if c = '\n' then '\\' :: 'n' :: []
  else if c = '\x0c' then '\\' :: 'f' :: []
  else if c = '\r' then '\\' :: 'r' :: []
  else if c.toNat < 32 then
    '\\' :: 'u' :: '0' :: '0' :: hexDigit (c.toNat / 16) :: hexDigit (c.toNat % 16) :: []
  else c :: []

/-- Escape every character of a string body in turn. -/
def escapeList : List Char → List Char
  | [] => []
  | c :: cs => escapeChar c ++ escapeList cs

/-- The JSON text of one string value: quotes around the escaped body. -/
def quoteChars (s : String) : List Char := '"' :: (escapeList s.data ++ ('"' :: []))

/-- Comma-separated JSON texts of the elements of a string array. -/
def stringifyItems : List String → List Char
  | [] => []
  | s :: [] => quoteChars s
  | s :: rest => quoteChars s ++ (',' :: stringifyItems rest)

/-- Model of `JSON.stringify` applied to an array of strings, which is what
`toggleComplete` writes to local storage. -/
def stringifyStrArr (l : List String) : String :=
  String.mk ('[' :: (stringifyItems l ++ (']' :: [])))

/-- The fixed local-storage key of the feature (`STORAGE_KEY`). -/
def STORAGE_KEY : String := "completedDocs"

/-- The browser local storage, modelled as a string-keyed map. -/
def Storage : Type := String → Option String

/-- Model of `localStorage.getItem` (`null` becomes `none`). -/
def Storage.getItem (st : Storage) (k : String) : Option String := st k

/-- Model of `localStorage.setItem`: overwrites the value under `k`,
leaving every other key unchanged. -/
def Storage.setItem (st : Storage) (k v : String) : Storage :=
  fun q => if q = k then some v else st q

/-- A storage holding no keys at all. -/
def Storage.empty : Storage := fun _ => none

/-- Model of `localStorage.getItem(STORAGE_KEY) || '[]'`: both a missing
key (`null`) and the empty string are falsy in JavaScript and replaced by
the default text `[]`. -/
def storedOrDefault (v : Option String) : String :=
  match v with
  | none => "[]"
  | some s => if s = "" then "[]" else s

/-- Model of the `useEffect` initializer of `ProgressProvider`:
`JSON.parse(localStorage.getItem(STORAGE_KEY) || '[]')`. A `none` result
models the `JSON.parse` exception propagating out of initialization;
`some j` models `setCompleted(j)` being reached with the parsed value. -/
def initStore (st : Storage) : Option Json :=
  jsonParse (storedOrDefault (st.getItem STORAGE_KEY))

/-- The elements of a parsed JSON array read back as strings, defined when
the array is an array of strings — the shape the provider itself persists. -/
def strElems : List Json → Option (List String)
  | [] => some []
  | Json.str s :: rest =>
    match strElems rest with
    | some l => some (s :: l)
    | none => none
  | _ => none

/-- The in-memory completion list obtained by initialization, when the
persisted value parses to an array of strings. -/
def initCompleted (st : Storage) : Option (List String) :=
  match initStore st with
  | some (Json.arr items) => strElems items
  | _ => none

/-- Model of the state update of `toggleComplete`:
the list `completed.includes(docId) ? completed.filter((id) => id !== docId)
: [...completed, docId]`. -/
def toggleComplete (docId : String) (completed : List String) : List String :=
  if completed.contains docId then completed.filter (fun id => id != docId)
  else completed ++ [docId]

/-- Model of `isCompleted`: `completed.includes(docId)`. -/
def isCompleted (docId : String) (completed : List String) : Bool :=
  completed.contains docId

/-- The provider's in-memory state together with the backing local storage. -/
structure ProviderState where
  completed : List String
  storage : Storage

/-- Model of one full `toggleComplete(docId)` call: the in-memory list is
updated and the serialized new list is written back under `STORAGE_KEY`. -/
def toggleStep (docId : String) (s : ProviderState) : ProviderState :=
  { completed := toggleComplete docId s.completed,
    storage := s.storage.setItem STORAGE_KEY (stringifyStrArr (toggleComplete docId s.completed)) }

/-- A sequence of `toggleComplete` calls, applied left to right. -/
def runToggles (ids : List String) (s : ProviderState) : ProviderState :=
  ids.foldl (fun t d => toggleStep d t) s

/-- A fresh provider over a given storage: the in-memory list starts empty
(`useState<string[]>([])`). -/
def freshState (st : Storage) : ProviderState := ⟨[], st⟩

/-- The context value exposed by `ProgressProvider` to consumers. -/
structure ProgressContextType where
  completed : List String

/-- The error message thrown by `useProgress` outside a provider. -/
def useProgressError : String := "useProgress must be used within a ProgressProvider"

/-- Model of `useProgress`: the context is `undefined` (`none`) when no
`ProgressProvider` is in scope, and then an explicit error is thrown;
otherwise the context value is returned. -/
def useProgress (ctx : Option ProgressContextType) : Except String ProgressContextType :=
  match ctx with
  | none => Except.error useProgressError
  | some c => Except.ok c

/-- Model of `pathname.replace(/^\/docs\//, '')`: the anchored regex
removes one leading occurrence of the fixed `/docs/` segment. -/
def stripDocs (p : String) : String :=
  if List.isPrefixOf ('/' :: 'd' :: 'o' :: 'c' :: 's' :: '/' :: []) p.data
  then String.mk (p.data.drop 6) else p

/-- Model of `.replace(/\/$/, '')`: removes one trailing slash. -/
def stripSlash (p : String) : String :=
  if p.data.getLast? = some '/' then String.mk p.data.dropLast else p

/-- The docId derivation of the footer wrapper. -/
def deriveDocId (pathname : String) : String := stripSlash (stripDocs pathname)

/-- Model of `docId.includes('/')`. -/
def hasSep (s : String) : Bool := s.data.contains '/'

/-- Model of the guard `!docId || docId === '' || !docId.includes('/')`
of the footer wrapper (a string is falsy exactly when it is empty). -/
def footerGuard (docId : String) : Bool :=
  (docId == "") || (docId == "") || !(hasSep docId)

/-- Whether the toggle button is rendered for a pathname: the original
footer alone is rendered exactly when the guard holds. -/
def renderToggle (pathname : String) : Bool := !(footerGuard (deriveDocId pathname))

/-! ### Membership behavior of the toggle operation -/

/-- Bridge between the boolean `contains` used by the model (mirroring the
JavaScript `includes`) and list membership. -/
theorem contains_iff_mem (l : List String) (a : String) : l.contains a = true ↔ a ∈ l :=
  List.elem_iff

/-- The negative form of `contains_iff_mem`. -/
theorem contains_false_iff (l : List String) (a : String) : l.contains a = false ↔ a ∉ l := by
  constructor
  · intro h hm
    rw [(contains_iff_mem l a).mpr hm] at h
    cases h
  · intro h
    cases hb : l.contains a
    · rfl
    · exact absurd ((contains_iff_mem l a).mp hb) h

/-- Characterization of membership after one toggle: `x` is in the new list
iff it was there and differs from the toggled id, or it is the toggled id
and was absent. -/
theorem mem_toggleComplete (d x : String) (l : List String) :
    x ∈ toggleComplete d l ↔ ((x ∈ l ∧ x ≠ d) ∨ (x = d ∧ d ∉ l)) := by
  by_cases h : d ∈ l
  · have hc : l.contains d = true := (contains_iff_mem l d).mpr h
    simp only [toggleComplete, hc, if_true, List.mem_filter, bne_iff_ne, ne_eq]
    constructor
    · exact fun hx => Or.inl hx
    · rintro (hx | ⟨rfl, hd⟩)
      · exact hx
      · exact absurd h hd
  · have hc : l.contains d = false := (contains_false_iff l d).mpr h
    simp only [toggleComplete, hc, Bool.false_eq_true, if_false, List.mem_append,
      List.mem_singleton]
    by_cases hxd : x = d
    · subst hxd
      simp [h]
    · simp [hxd, h]

/-- Toggling an id flips its own membership bit. -/
theorem isCompleted_toggle_self (d : String) (l : List String) :
    isCompleted d (toggleComplete d l) = !(isCompleted d l) := by
  apply Bool.coe_iff_coe.mp
  simp only [isCompleted, Bool.not_eq_true', contains_iff_mem, contains_false_iff,
    mem_toggleComplete]
  constructor
  · rintro (⟨_, hne⟩ | ⟨_, hd⟩)
    · exact absurd rfl hne
    · exact hd
  · intro h
    exact Or.inr ⟨by simp, h⟩

/-- Toggling one id does not change the membership bit of another id. -/
theorem isCompleted_toggle_other (d x : String) (l : List String) (h : x ≠ d) :
    isCompleted x (toggleComplete d l) = isCompleted x l := by
  apply Bool.coe_iff_coe.mp
  simp only [isCompleted, contains_iff_mem, mem_toggleComplete]
  constructor
  · rintro (⟨hx, _⟩ | ⟨rfl, _⟩)
    · exact hx
    · exact absurd rfl h
  · intro hx
    exact Or.inl ⟨hx, h⟩

/-- When the id is present, the toggle takes the filter branch. -/
theorem toggleComplete_of_mem (d : String) (l : List String) (h : d ∈ l) :
    toggleComplete d l = l.filter (fun id => id != d) := by
  unfold toggleComplete
  rw [if_pos ((contains_iff_mem l d).mpr h)]

/-- The no-duplicates invariant is preserved by one toggle. -/
theorem nodup_toggleComplete (d : String) (l : List String) (h : l.Nodup) :
    (toggleComplete d l).Nodup := by
  by_cases hm : d ∈ l
  · rw [toggleComplete_of_mem d l hm]
    exact h.filter _
  · have hc : l.contains d = false := (contains_false_iff l d).mpr hm
    simp only [toggleComplete, hc, Bool.false_eq_true, if_false]
    simp [List.nodup_append, h, hm]

/-- Toggle sequences preserve the no-duplicates invariant. -/
theorem nodup_runToggles (ids : List String) :
    ∀ s : ProviderState, s.completed.Nodup → ((runToggles ids s).completed).Nodup := by
  induction ids with
  | nil => exact fun s h => h
  | cons d rest ih =>
    intro s h
    exact ih (toggleStep d s) (nodup_toggleComplete d s.completed h)

/-! ### Claim theorems (first batch) -/

/-- C2: for every docId and every in-memory list state, toggling the same
docId twice in succession restores `isCompleted(docId)` to its prior value
(the toggle is an involution on membership). -/
theorem c2_toggle_involution (docId : String) (completed : List String) :
    isCompleted docId (toggleComplete docId (toggleComplete docId completed))
      = isCompleted docId completed := by
  rw [isCompleted_toggle_self, isCompleted_toggle_self, Bool.not_not]

/-- C3: one `toggleComplete(docId)` call removes `docId` when it is a member
and adds it otherwise (membership characterization), and it writes the new
list serialized as a JSON array of strings under the same fixed storage
key, overwriting the previous value and leaving all other keys unchanged. -/
theorem c3_toggle_updates_and_persists (docId : String) (s : ProviderState) :
    (∀ x, x ∈ (toggleStep docId s).completed ↔
        ((x ∈ s.completed ∧ x ≠ docId) ∨ (x = docId ∧ docId ∉ s.completed)))
    ∧ (toggleStep docId s).storage.getItem STORAGE_KEY
        = some (stringifyStrArr ((toggleStep docId s).completed))
    ∧ (∀ k, k ≠ STORAGE_KEY →
        (toggleStep docId s).storage.getItem k = s.storage.getItem k) := by
  refine ⟨fun x => mem_toggleComplete docId x s.completed, ?_, ?_⟩
  · simp [toggleStep, Storage.getItem, Storage.setItem]
  · intro k hk
    simp [toggleStep, Storage.getItem, Storage.setItem, hk]

/-- Witness for C3 at a concrete input: toggling writes only the fixed key,
so an unrelated key stays absent. -/
theorem c3_witness :
    (toggleStep "b" ⟨( "a" :: []), Storage.empty⟩).storage.getItem "other" = none :=
  ((c3_toggle_updates_and_persists "b" ⟨( "a" :: []), Storage.empty⟩).2.2
    "other" (by decide)).trans rfl

/-- Missing storage key: the initializer parses the default text `[]`. -/
theorem initStore_key_absent (st : Storage) (h : st.getItem STORAGE_KEY = none) :
    initStore st = some (Json.arr []) := by
  unfold initStore
  rw [h]
  rfl

/-- Missing storage key: the resulting in-memory completion list is empty. -/
theorem initCompleted_key_absent (st : Storage) (h : st.getItem STORAGE_KEY = none) :
    initCompleted st = some [] := by
  unfold initCompleted
  rw [initStore_key_absent st h]
  rfl

/-- C6: with no persisted state under the fixed key, initialization
completes without error with an empty completion set, and `isCompleted`
is false for every string. -/
theorem c6_fresh_init_empty (st : Storage) (h : st.getItem STORAGE_KEY = none) :
    initStore st = some (Json.arr []) ∧ initCompleted st = some []
    ∧ ∀ d, isCompleted d [] = false :=
  ⟨initStore_key_absent st h, initCompleted_key_absent st h, fun _ => rfl⟩

/-- Witness for C6 at the empty storage. -/
theorem c6_witness :
    initStore Storage.empty = some (Json.arr []) ∧ initCompleted Storage.empty = some []
    ∧ ∀ d, isCompleted d [] = false :=
  c6_fresh_init_empty Storage.empty rfl

/-- C8: reading the store's accessors outside a provider (context value
`undefined`) throws the explicit configuration error instead of returning
a default, while inside a provider the context value is returned as is. -/
theorem c8_useProgress_outside_provider_errors :
    useProgress none = Except.error useProgressError
    ∧ ∀ c, useProgress (some c) = Except.ok c :=
  ⟨rfl, fun _ => rfl⟩

/-- C9: the toggle control is not rendered when the derived identifier is
empty or has no path separator, and is rendered when the derived
identifier contains a separator. -/
theorem c9_footer_guard (pathname : String) :
    ((deriveDocId pathname = "" ∨ hasSep (deriveDocId pathname) = false) →
      renderToggle pathname = false)
    ∧ (hasSep (deriveDocId pathname) = true → renderToggle pathname = true) := by
  constructor
  · rintro (h | h) <;> simp [renderToggle, footerGuard, h]
  · intro h
    have hne : (deriveDocId pathname == "") = false := by
      apply beq_eq_false_iff_ne.mpr
      intro he
      rw [he] at h
      cases h
    simp [renderToggle, footerGuard, h, hne]

/-- Witness for C9: the module landing page `/docs/module2` derives to an
identifier without a separator and the button is not rendered. -/
theorem c9_witness : renderToggle "/docs/module2" = false :=
  (c9_footer_guard "/docs/module2").1 (Or.inr rfl)

/-- C10: when the in-memory list holds duplicate occurrences of a docId, a
single toggle removes every occurrence, so `isCompleted` is false right
after that one call. -/
theorem c10_toggle_removes_duplicates (d : String) (l : List String)
    (h : 2 ≤ l.count d) :
    (toggleComplete d l).count d = 0
    ∧ isCompleted d (toggleComplete d l) = false := by
  have hm : d ∈ l := by
    by_contra hn
    rw [List.count_eq_zero.mpr hn] at h
    omega
  rw [toggleComplete_of_mem d l hm]
  constructor
  · rw [List.count_eq_zero]
    simp [List.mem_filter]
  · apply (contains_false_iff _ _).mpr
    simp [List.mem_filter]

/-- Witness for C10 on the two-element duplicate list. -/
theorem c10_witness :
    (toggleComplete "a" (( "a" : String) :: "a" :: [])).count "a" = 0
    ∧ isCompleted "a" (toggleComplete "a" (( "a" : String) :: "a" :: [])) = false :=
  c10_toggle_removes_duplicates "a" (( "a" : String) :: "a" :: []) (by decide)

/-- C1 fails on the code: with the persisted value `not json` under the
fixed key, `JSON.parse` throws (the initializer has no try/catch), so
initialization does not yield an empty completion set. -/
theorem c1_counterexample_invalid_json_throws :
    initStore (Storage.setItem Storage.empty STORAGE_KEY "not json") = none
    ∧ ¬ initStore (Storage.setItem Storage.empty STORAGE_KEY "not json")
        = some (Json.arr []) := by
  have h : initStore (Storage.setItem Storage.empty STORAGE_KEY "not json") = none := rfl
  refine ⟨h, ?_⟩
  rw [h]
  intro hc
  cases hc

/-- C7 fails on the code: a persisted array with duplicate identifiers is
loaded verbatim by initialization, so the no-duplicates invariant does not
hold for every possible persisted value. -/
theorem c7_counterexample_duplicates_after_init :
    initCompleted (Storage.setItem Storage.empty STORAGE_KEY "[\"a\",\"a\"]")
      = some ( "a" :: "a" :: [])
    ∧ ¬ (( "a" : String) :: "a" :: []).Nodup :=
  ⟨rfl, by decide⟩

/-! ### Round-trip of the persisted representation -/

/-- The serializer's hex digits are read back by the parser's hex reader. -/
theorem hexVal_hexDigit : ∀ n, n < 16 → hexVal (hexDigit n) = some n := by decide

/-- Rebuilding a string from its character data gives the string back. -/
theorem stringMk_data (s : String) : String.mk s.data = s := rfl

/-- The parser's hex reader on the literal zero digit. -/
theorem hexVal_zero : hexVal '0' = some 0 := rfl

/-- Leading whitespace skipping keeps a quote-headed input. -/
theorem skipWs_quote (cs : List Char) : skipWs ('"' :: cs) = '"' :: cs := rfl

/-- Leading whitespace skipping keeps a bracket-headed input. -/
theorem skipWs_lbrack (cs : List Char) : skipWs ('[' :: cs) = '[' :: cs := rfl

/-- Leading whitespace skipping keeps an input headed by a closing bracket. -/
theorem skipWs_rbrack (cs : List Char) : skipWs (']' :: cs) = ']' :: cs := rfl

/-- Leading whitespace skipping keeps a comma-headed input. -/
theorem skipWs_comma (cs : List Char) : skipWs (',' :: cs) = ',' :: cs := rfl

/-- One step of the string-body parser on an ordinary character. -/
theorem parseStringBody_default (f : Nat) (c : Char) (tail : List Char)
    (h1 : ¬ c = '"') (h2 : ¬ c = '\\') (h8 : ¬ c.toNat < 32) :
    parseStringBody (f + 1) (c :: tail)
      = (parseStringBody f tail).map (fun p => (c :: p.1, p.2)) := by
  simp only [parseStringBody]
  rw [if_neg h1, if_neg h2, if_neg h8]

/-- One step of the string-body parser on a unicode escape with two leading
zero digits. -/
theorem parseStringBody_unicode (f : Nat) (tail : List Char) (x1 x2 : Char) (a b : Nat)
    (h1 : hexVal x1 = some a) (h2 : hexVal x2 = some b) :
    parseStringBody (f + 1) ('\\' :: 'u' :: '0' :: '0' :: x1 :: x2 :: tail)
      = (parseStringBody f tail).map
          (fun p => (Char.ofNat (4096 * 0 + 256 * 0 + 16 * a + b) :: p.1, p.2)) := by
  simp only [parseStringBody]
  rw [h1, h2]
  simp [hexVal_zero]

/-- Decoding one escaped character undoes the escaping of that character. -/
theorem parseStringBody_escapeChar (c : Char) (f : Nat) (tail : List Char) :
    parseStringBody (f + 1) (escapeChar c ++ tail)
      = (parseStringBody f tail).map (fun p => (c :: p.1, p.2)) := by
  unfold escapeChar
  split_ifs with h1 h2 h3 h4 h5 h6 h7 h8
  · subst h1
    rfl
  · subst h2
    rfl
  · subst h3
    rfl
  · subst h4
    rfl
  · subst h5
    rfl
  · subst h6
    rfl
  · subst h7
    rfl
  · have hd1 : hexVal (hexDigit (c.toNat / 16)) = some (c.toNat / 16) :=
      hexVal_hexDigit _ (by omega)
    have hd2 : hexVal (hexDigit (c.toNat % 16)) = some (c.toNat % 16) :=
      hexVal_hexDigit _ (Nat.mod_lt _ (by omega))
    simp only [List.cons_append, List.nil_append]
    rw [parseStringBody_unicode f tail _ _ _ _ hd1 hd2]
    simp only [show 4096 * 0 + 256 * 0 + 16 * (c.toNat / 16) + c.toNat % 16 = c.toNat from
      by omega, Char.ofNat_toNat]
  · simp only [List.cons_append, List.nil_append]
    exact parseStringBody_default f c tail h1 h2 h8

/-- Decoding an escaped body stops exactly at the closing quote and returns
the original characters (fuel given in exact form). -/
theorem parseStringBody_escapeList (cs : List Char) :
    ∀ (k : Nat) (rest : List Char),
      parseStringBody (cs.length + k + 1) (escapeList cs ++ '"' :: rest) = some (cs, rest) := by
  induction cs with
  | nil =>
    intro k rest
    rfl
  | cons c cs ih =>
    intro k rest
    have hassoc : escapeList (c :: cs) ++ '"' :: rest
        = escapeChar c ++ (escapeList cs ++ '"' :: rest) := by
      simp [escapeList]
    have hlen : (c :: cs).length + k + 1 = cs.length + k + 1 + 1 := by
      simp only [List.length_cons]
      omega
    rw [hassoc, hlen, parseStringBody_escapeChar, ih k rest]
    rfl

/-- Every character escapes to at least one character. -/
theorem one_le_escapeChar_length (c : Char) : 1 ≤ (escapeChar c).length := by
  unfold escapeChar
  split_ifs <;> simp

/-- Escaping never shortens a character list. -/
theorem le_length_escapeList (cs : List Char) : cs.length ≤ (escapeList cs).length := by
  induction cs with
  | nil => simp [escapeList]
  | cons c cs ih =>
    have := one_le_escapeChar_length c
    simp only [escapeList, List.length_append, List.length_cons]
    omega

/-- Decoding an escaped body with any sufficient fuel. -/
theorem parseStringBody_escapeList_le (cs : List Char) (f : Nat) (rest : List Char)
    (h : cs.length + 1 ≤ f) :
    parseStringBody f (escapeList cs ++ '"' :: rest) = some (cs, rest) := by
  obtain ⟨k, rfl⟩ : ∃ k, f = cs.length + k + 1 := ⟨f - cs.length - 1, by omega⟩
  exact parseStringBody_escapeList cs k rest

/-- The value parser on a quote-headed input, given the string body result. -/
theorem parseValue_str_of (f : Nat) (body sc rest2 : List Char)
    (h : parseStringBody (body.length + 1) body = some (sc, rest2)) :
    parseValue (f + 1) ('"' :: body) = some (Json.str (String.mk sc), rest2) := by
  simp only [parseValue, skipWs_quote, h]

/-- Parsing the serialized form of one string value yields that string. -/
theorem parseValue_quote (f : Nat) (s : String) (rest : List Char) :
    parseValue (f + 1) (quoteChars s ++ rest) = some (Json.str s, rest) := by
  have harr : quoteChars s ++ rest = '"' :: (escapeList s.data ++ '"' :: rest) := by
    simp [quoteChars]
  have hlen : s.data.length + 1 ≤ (escapeList s.data ++ '"' :: rest).length + 1 := by
    have := le_length_escapeList s.data
    simp only [List.length_append, List.length_cons]
    omega
  rw [harr, parseValue_str_of f _ s.data rest
    (parseStringBody_escapeList_le s.data _ rest hlen), stringMk_data]

/-- Parsing the serialized form of one string value, with any positive fuel. -/
theorem parseValue_quote_le (f : Nat) (hf : 1 ≤ f) (s : String) (rest : List Char) :
    parseValue f (quoteChars s ++ rest) = some (Json.str s, rest) := by
  obtain ⟨f1, rfl⟩ : ∃ f1, f = f1 + 1 := ⟨f - 1, by omega⟩
  exact parseValue_quote f1 s rest

/-- Parsing the serialized items of a nonempty string array yields exactly
its elements, consuming the closing bracket. -/
theorem parseItems_stringifyItems :
    ∀ (l : List String) (f : Nat) (rest : List Char), l ≠ [] → l.length + 1 ≤ f →
      parseItems f (stringifyItems l ++ ']' :: rest) = some (l.map Json.str, rest) := by
  intro l
  induction l with
  | nil => exact fun f rest hne _ => absurd rfl hne
  | cons s l ih =>
    intro f rest hne hf
    obtain ⟨f1, rfl⟩ : ∃ f1, f = f1 + 1 := ⟨f - 1, by omega⟩
    cases l with
    | nil =>
      have hf1 : 1 ≤ f1 := by
        simp only [List.length_cons, List.length_nil] at hf
        omega
      have harr : stringifyItems (s :: []) ++ ']' :: rest = quoteChars s ++ ']' :: rest := rfl
      rw [harr]
      have hv := parseValue_quote_le f1 hf1 s (']' :: rest)
      simp [parseItems, hv, skipWs_rbrack]
    | cons s2 l2 =>
      have hlen2 : (s2 :: l2).length + 1 ≤ f1 := by
        simp only [List.length_cons] at hf ⊢
        omega
      have hf1 : 1 ≤ f1 := by
        have : 0 ≤ (s2 :: l2).length := Nat.zero_le _
        omega
      have hrec := ih f1 rest (by simp) hlen2
      have harr : stringifyItems (s :: s2 :: l2) ++ ']' :: rest
          = quoteChars s ++ (',' :: (stringifyItems (s2 :: l2) ++ ']' :: rest)) := by
        simp [stringifyItems]
      rw [harr]
      have hv := parseValue_quote_le f1 hf1 s (',' :: (stringifyItems (s2 :: l2) ++ ']' :: rest))
      simp [parseItems, hv, skipWs_comma, hrec]

/-- A serialized string value occupies at least its two quotes. -/
theorem two_le_quoteChars_length (s : String) : 2 ≤ (quoteChars s).length := by
  simp [quoteChars]

/-- The serialized items are at least as many characters as items, save one. -/
theorem length_le_stringifyItems (l : List String) :
    l.length ≤ (stringifyItems l).length + 1 := by
  induction l with
  | nil => simp [stringifyItems]
  | cons s l ih =>
    cases l with
    | nil =>
      have := two_le_quoteChars_length s
      simp [stringifyItems]
    | cons s2 l2 =>
      have hq := two_le_quoteChars_length s
      simp only [stringifyItems, List.length_append, List.length_cons] at ih ⊢
      omega

/-- The nonempty serialized items start with a quote character. -/
theorem stringifyItems_cons_head (s : String) (l2 : List String) :
    ∃ t, stringifyItems (s :: l2) = '"' :: t := by
  cases l2 with
  | nil => exact ⟨escapeList s.data ++ '"' :: [], by simp [stringifyItems, quoteChars]⟩
  | cons s2 l3 =>
    refine ⟨escapeList s.data ++ '"' :: [] ++ (',' :: stringifyItems (s2 :: l3)), ?_⟩
    simp [stringifyItems, quoteChars]

/-- Parsing the full serialized string array with enough fuel yields the
array of its strings. -/
theorem parseValue_stringifyStrArr (l : List String) (f : Nat) (rest : List Char)
    (hf : l.length + 2 ≤ f) :
    parseValue f ((stringifyStrArr l).data ++ rest)
      = some (Json.arr (l.map Json.str), rest) := by
  obtain ⟨f1, rfl⟩ : ∃ f1, f = f1 + 1 := ⟨f - 1, by omega⟩
  have harr : (stringifyStrArr l).data ++ rest = '[' :: (stringifyItems l ++ ']' :: rest) := by
    simp [stringifyStrArr]
  rw [harr]
  cases l with
  | nil => rfl
  | cons s l2 =>
    obtain ⟨t, ht⟩ := stringifyItems_cons_head s l2
    have hlen3 : (s :: l2).length + 1 ≤ f1 := by
      simp only [List.length_cons] at hf ⊢
      omega
    have hitems := parseItems_stringifyItems (s :: l2) f1 rest (by simp) hlen3
    rw [ht] at hitems ⊢
    simp only [List.cons_append] at hitems ⊢
    simp [parseValue, skipWs_lbrack, skipWs_quote, hitems]

/-- Serialization followed by `JSON.parse` recovers the string array. -/
theorem jsonParse_stringifyStrArr (l : List String) :
    jsonParse (stringifyStrArr l) = some (Json.arr (l.map Json.str)) := by
  unfold jsonParse
  have hlen : l.length + 2 ≤ (stringifyStrArr l).data.length + 1 := by
    have h1 := length_le_stringifyItems l
    simp only [stringifyStrArr, List.length_cons, List.length_append]
    omega
  have h := parseValue_stringifyStrArr l ((stringifyStrArr l).data.length + 1) [] hlen
  rw [List.append_nil] at h
  rw [h]
  rfl

/-- Reading back an array of string values yields the strings. -/
theorem strElems_map (l : List String) : strElems (l.map Json.str) = some l := by
  induction l with
  | nil => rfl
  | cons s l ih => simp [strElems, ih]

/-- The serialized form of a string array is never the empty string. -/
theorem stringifyStrArr_ne_empty (l : List String) : stringifyStrArr l ≠ "" := by
  intro h
  have hd := congrArg String.data h
  simp [stringifyStrArr] at hd

/-- After writing a serialized string array under the fixed key,
initialization reads back exactly that array. -/
theorem initCompleted_setItem (st : Storage) (l : List String) :
    initCompleted (Storage.setItem st STORAGE_KEY (stringifyStrArr l)) = some l := by
  unfold initCompleted initStore
  have hget : (Storage.setItem st STORAGE_KEY (stringifyStrArr l)).getItem STORAGE_KEY
      = some (stringifyStrArr l) := by
    simp [Storage.getItem, Storage.setItem]
  rw [hget]
  have hdef : storedOrDefault (some (stringifyStrArr l)) = stringifyStrArr l := by
    simp [storedOrDefault, stringifyStrArr_ne_empty l]
  rw [hdef, jsonParse_stringifyStrArr]
  simp [strElems_map]

/-- The persisted copy and the in-memory list stay in sync along any
sequence of toggles. -/
theorem initCompleted_runToggles (ids : List String) :
    ∀ s : ProviderState, initCompleted s.storage = some s.completed →
      initCompleted ((runToggles ids s).storage) = some ((runToggles ids s).completed) := by
  induction ids with
  | nil => exact fun s h => h
  | cons d rest ih =>
    intro s _
    exact ih (toggleStep d s) (initCompleted_setItem s.storage (toggleComplete d s.completed))

/-! ### Claim theorems (second batch) -/

/-- C1 (amended): when the fixed key is absent the initializer yields an
empty completion set without error, but when the persisted value is present
and not valid JSON (such as the literal text `not json`), `JSON.parse`
throws and the exception propagates out of initialization. -/
theorem c1_amended_parse_failure_propagates (st : Storage)
    (h : st.getItem STORAGE_KEY = none) :
    initStore st = some (Json.arr [])
    ∧ initStore (Storage.setItem Storage.empty STORAGE_KEY "not json") = none :=
  ⟨initStore_key_absent st h, rfl⟩

/-- Witness for the amended C1 at the empty storage. -/
theorem c1_amended_witness :
    initStore Storage.empty = some (Json.arr [])
    ∧ initStore (Storage.setItem Storage.empty STORAGE_KEY "not json") = none :=
  c1_amended_parse_failure_propagates Storage.empty rfl

/-- C4: after any finite sequence of toggles from a fresh store over an
empty storage, re-initializing from the persisted storage reproduces
exactly the final in-memory completion list, hence the same membership for
every identifier. -/
theorem c4_reinit_roundtrip (ids : List String) :
    initCompleted ((runToggles ids (freshState Storage.empty)).storage)
      = some ((runToggles ids (freshState Storage.empty)).completed)
    ∧ ∀ (l : List String) (docId : String),
        initCompleted ((runToggles ids (freshState Storage.empty)).storage) = some l →
          isCompleted docId l
            = isCompleted docId ((runToggles ids (freshState Storage.empty)).completed) := by
  have h0 : initCompleted (freshState Storage.empty).storage
      = some (freshState Storage.empty).completed := rfl
  have h := initCompleted_runToggles ids (freshState Storage.empty) h0
  refine ⟨h, ?_⟩
  intro l docId hl
  rw [h] at hl
  rw [Option.some.inj hl]

/-- Witness for C4 on the one-toggle sequence. -/
theorem c4_witness :
    isCompleted "x" ( "x" :: [])
      = isCompleted "x" ((runToggles ( "x" :: []) (freshState Storage.empty)).completed) :=
  (c4_reinit_roundtrip ( "x" :: [])).2 ( "x" :: []) "x" rfl

/-- C5: toggling one identifier never changes `isCompleted` of a different
identifier, neither in memory nor (when the storage is in sync with the
in-memory list, as it is in every reachable state) in the persisted
representation read back by initialization. -/
theorem c5_toggle_isolation (a b : String) (s : ProviderState) (hab : a ≠ b) :
    isCompleted b ((toggleStep a s).completed) = isCompleted b s.completed
    ∧ (initCompleted s.storage = some s.completed →
        (initCompleted ((toggleStep a s).storage)).map (fun l => isCompleted b l)
          = (initCompleted s.storage).map (fun l => isCompleted b l)) := by
  have hmem : isCompleted b (toggleComplete a s.completed) = isCompleted b s.completed :=
    isCompleted_toggle_other a b s.completed hab.symm
  refine ⟨hmem, ?_⟩
  intro hsync
  have hset : initCompleted ((toggleStep a s).storage)
      = some (toggleComplete a s.completed) :=
    initCompleted_setItem s.storage (toggleComplete a s.completed)
  rw [hset, hsync]
  simp [hmem]

/-- Witness for C5 from the fresh state. -/
theorem c5_witness :
    isCompleted "b" ((toggleStep "a" (freshState Storage.empty)).completed)
      = isCompleted "b" (freshState Storage.empty).completed
    ∧ (initCompleted ((toggleStep "a" (freshState Storage.empty)).storage)).map
          (fun l => isCompleted "b" l)
        = (initCompleted (freshState Storage.empty).storage).map
            (fun l => isCompleted "b" l) :=
  ⟨(c5_toggle_isolation "a" "b" (freshState Storage.empty) (by decide)).1,
    (c5_toggle_isolation "a" "b" (freshState Storage.empty) (by decide)).2 rfl⟩

/-- C7 (amended): the no-duplicates invariant is preserved by every toggle,
and holds in every state reachable from a fresh store over an empty
storage; arbitrary persisted values, however, can inject duplicates at
initialization. -/
theorem c7_amended_nodup_invariant :
    (∀ (d : String) (l : List String), l.Nodup → (toggleComplete d l).Nodup)
    ∧ ∀ ids : List String, ((runToggles ids (freshState Storage.empty)).completed).Nodup :=
  ⟨fun d l h => nodup_toggleComplete d l h,
    fun ids => nodup_runToggles ids (freshState Storage.empty) List.nodup_nil⟩

/-- Witness for the amended C7 on a concrete toggle. -/
theorem c7_amended_witness : (toggleComplete "a" (( "b" : String) :: [])).Nodup :=
  c7_amended_nodup_invariant.1 "a" (( "b" : String) :: []) (by decide)

end MoexCourse
